import Mathlib

/-!
Verification of the emoji co-occurrence graph builder (`graph_builder.py`).

The embedding models:
* `parse_emojis` — Python `pd.isna` check followed by `x.split()` and
  per-token `strip()`; a non-string, non-missing cell makes `x.split()`
  raise `AttributeError`, modelled by `Except.error`.
* `create_nodes` — parses every review's `emojis` cell into the derived
  `emoji_list` column and counts unordered co-occurrence pairs, one
  increment per pair per review, over `sorted(set(tokens))`.
* `build_graph` — folds the counter items into a graph via `add_edge`
  (weight attribute) and then attaches the raw token frequencies as the
  `frequency` node attribute via `set_node_attributes` (which skips
  tokens that are not graph nodes).
-/

namespace GraphBuilder

/-! ### Python string primitives -/

/-- Whitespace characters recognised by Python's `str.split()` /
`str.strip()` (ASCII subset). -/
def isSpace (c : Char) : Bool :=
  c = ' ' || c = '\t' || c = '\n' || c = '\r' || c = '\x0b' || c = '\x0c'

/-- The scanning loop of Python `x.split()`: `acc` holds the characters
of the current (reversed) unfinished word. -/
def splitAux : List Char → List Char → List (List Char)
  | [], [] => []
  | [], acc => [acc.reverse]
  | c :: cs, acc =>
    if isSpace c then
      match acc with
      | [] => splitAux cs []
      | _ => acc.reverse :: splitAux cs []
    else splitAux cs (c :: acc)

/-- Python `x.split()` on the character list of `x`: maximal runs of
non-whitespace characters, in order; empty chunks never occur. -/
def pySplit (l : List Char) : List (List Char) :=
  splitAux l []

lemma length_dropWhile_le {β : Type} (p : β → Bool) (l : List β) :
    (l.dropWhile p).length ≤ l.length := by
  induction l with
  | nil => simp
  | cons a l ih =>
    by_cases h : p a
    · rw [List.dropWhile_cons_of_pos h]
      simp only [List.length_cons]
      omega
    · rw [List.dropWhile_cons_of_neg h]

/-- Splitting on whitespace as §4.1 of the spec words it: the maximal
runs of non-whitespace characters, in order.  Used to check that the
accumulator loop `splitAux` really computes this. -/
def wsTokens : List Char → List (List Char)
  | [] => []
  | c :: cs =>
    if isSpace c then wsTokens cs
    else (c :: cs.takeWhile (fun d => !isSpace d)) ::
      wsTokens (cs.dropWhile (fun d => !isSpace d))
termination_by l => l.length
decreasing_by
  · simp only [List.length_cons]
    omega
  · have h := length_dropWhile_le (fun d => !isSpace d) cs
    simp only [List.length_cons]
    omega

/-- Python `t.strip()`: drop leading and trailing whitespace. -/
def pyStrip (l : List Char) : List Char :=
  ((l.dropWhile isSpace).reverse.dropWhile isSpace).reverse

/-- A pandas cell value, as far as the `emojis` column is concerned:
a missing marker (`NaN`/`None`), a string, or some other value such as
an integer (present but not a string). -/
inductive PyValue where
  | na : PyValue
  | pstr : String → PyValue
  | pint : Int → PyValue
deriving DecidableEq

/-- `pd.isna` on an `emojis` cell. -/
def pd_isna : PyValue → Bool
  | .na => true
  | _ => false

/-- A parsed emoji token: the character list of a Python string
(`List Char` carries the code-point lexicographic order that Python's
`sorted` uses on strings). -/
abbrev Token := List Char

/-- `GraphBuilder.parse_emojis`: `if pd.isna(x): return []` then
`[e.strip() for e in x.split()]`.  A present non-string value reaches
`x.split()`, which raises `AttributeError` (`Except.error`). -/
def parse_emojis (x : PyValue) : Except Unit (List Token) :=
  if pd_isna x then Except.ok []
  else
    match x with
    | .pstr s => Except.ok ((pySplit s.data).map pyStrip)
    | _ => Except.error ()

/-! ### Pair counting (`create_nodes`, lines 60–69) -/

variable {α : Type} [LinearOrder α] [DecidableEq α]

/-- `itertools.combinations(l, 2)` as ordered pairs, in enumeration
order: every `(l[i], l[j])` with `i < j`. -/
def pairs : List α → List (α × α)
  | [] => []
  | x :: xs => (xs.map fun y => (x, y)) ++ pairs xs

/-- Python `sorted(set(l))`: the distinct elements of `l` in ascending
order. -/
def sortedDistinct (l : List α) : List α :=
  (l.dedup).insertionSort (fun a b => a ≤ b)

/-- The pairs one review contributes to the counter: nothing when the
token list has fewer than two elements, otherwise all combinations of
the sorted distinct tokens. -/
def reviewPairs (r : List α) : List (α × α) :=
  if r.length < 2 then [] else pairs (sortedDistinct r)

/-- Every counter increment performed by the loop in `create_nodes`,
across the whole corpus. -/
def allPairs (corpus : List (List α)) : List (α × α) :=
  corpus.flatMap reviewPairs

/-- The value of the returned `Counter` at key `p`. -/
def pairCount (corpus : List (List α)) (p : α × α) : Nat :=
  (allPairs corpus).count p

/-- `Counter(e for emojis in reviews["emoji_list"] for e in emojis)`:
the raw occurrence count of token `t` over all parsed lists. -/
def freqCount (corpus : List (List α)) (t : α) : Nat :=
  corpus.flatten.count t

/-- The `Counter.items()` list of `create_nodes`' result: each distinct
key once, with its count. -/
def counterItems (corpus : List (List α)) : List ((α × α) × Nat) :=
  ((allPairs corpus).dedup).map (fun p => (p, (allPairs corpus).count p))

/-! ### Graph assembly (`build_graph`, lines 84–94) -/

/-- A `networkx.Graph` as built by this program: node set, edge set
(edges are inserted with lexicographically ordered endpoints), the
`weight` edge attribute and the `frequency` node attribute.  `weight`
defaults to `0` off the edge set; `frequency` is `none` where the
attribute was never set. -/
@[ext]
structure NXGraph (α : Type) where
  nodes : Finset α
  edges : Finset (α × α)
  weight : α × α → Nat
  frequency : α → Option Nat

/-- `nx.Graph()`: the empty graph. -/
def NXGraph.empty (α : Type) : NXGraph α :=
  ⟨∅, ∅, fun _ => 0, fun _ => none⟩

/-- `graph.add_edge(e.1, e.2, weight = w)`: inserts both endpoints as
nodes, the edge, and sets its weight. -/
def addEdge (g : NXGraph α) (e : α × α) (w : Nat) : NXGraph α where
  nodes := insert e.2 (insert e.1 g.nodes)
  edges := insert e g.edges
  weight := fun p => if p = e then w else g.weight p
  frequency := g.frequency

/-- The `for (e1, e2), weight in edge_counter.items()` loop. -/
def addEdges (g : NXGraph α) (items : List ((α × α) × Nat)) : NXGraph α :=
  items.foldl (fun h i => addEdge h i.1 i.2) g

/-- `nx.set_node_attributes(graph, emoji_freq, name="frequency")`: a
node gets the attribute exactly when it is a key of the frequency
counter (count ≥ 1) and already a node of the graph. -/
def setFrequency (g : NXGraph α) (freq : α → Nat) : NXGraph α :=
  { g with
    frequency := fun n => if n ∈ g.nodes ∧ 0 < freq n then some (freq n) else none }

/-- The pure core of `build_graph`, as a function of the parsed
per-review token lists. -/
def build_graph (corpus : List (List α)) : NXGraph α :=
  setFrequency (addEdges (NXGraph.empty α) (counterItems corpus)) (freqCount corpus)

/-- Degree of a node: number of incident edges. -/
def degree (g : NXGraph α) (n : α) : Nat :=
  (g.edges.filter (fun e => e.1 = n ∨ e.2 = n)).card

/-- All endpoints touched by a list of counter items. -/
def itemEndpoints (items : List ((α × α) × Nat)) : Finset α :=
  (items.map (fun i => i.1.1)).toFinset ∪ (items.map (fun i => i.1.2)).toFinset

/-- The tokens occurring in at least one entry of the pair counter. -/
def pairSupport (corpus : List (List α)) : Finset α :=
  itemEndpoints (counterItems corpus)

/-- The key set of the frequency counter: tokens with at least one raw
occurrence. -/
def freqSupport (corpus : List (List α)) : Finset α :=
  corpus.flatten.toFinset

/-! ### The stateful pipeline (`GraphBuilder` object) -/

/-- One row of the reviews DataFrame. Only `emojis` is consumed. -/
structure ReviewRecord where
  name : String
  category : String
  review : String
  emojis : PyValue
  rating : Int
  url : String
deriving DecidableEq

/-- The mutable state of a `GraphBuilder`: the reviews DataFrame
(its original records plus the derived `emoji_list` column, absent
until `create_nodes` assigns it) and `self.graph`. -/
structure Builder where
  records : List ReviewRecord
  emoji_list : Option (List (List Token))
  graph : NXGraph Token

/-- `GraphBuilder.__init__`. -/
def mkBuilder (reviews : List ReviewRecord) : Builder :=
  ⟨reviews, none, NXGraph.empty Token⟩

/-- `self.reviews["emojis"].apply(self.parse_emojis)`: parses each cell
in row order; the first exception raised by `parse_emojis` propagates. -/
def applyParse : List ReviewRecord → Except Unit (List (List Token))
  | [] => Except.ok []
  | r :: rs =>
    match parse_emojis r.emojis with
    | .error e => .error e
    | .ok l =>
      match applyParse rs with
      | .error e => .error e
      | .ok ls => .ok (l :: ls)

/-- `GraphBuilder.create_nodes`: parses every `emojis` cell (an
exception from `parse_emojis` propagates and aborts the whole call),
stores the parsed lists as the new `emoji_list` column, and returns the
pair counter. -/
def create_nodes (b : Builder) : Except Unit (Builder × List ((Token × Token) × Nat)) :=
  match applyParse b.records with
  | .error e => .error e
  | .ok lists => .ok ({ b with emoji_list := some lists }, counterItems lists)

/-- `GraphBuilder.build_graph`: runs `create_nodes`, folds the counter
items into `self.graph` via `add_edge`, computes the frequency counter
from the `emoji_list` column and attaches it, returning the graph. -/
def build_graph_run (b : Builder) : Except Unit (Builder × NXGraph Token) :=
  match create_nodes b with
  | .error e => .error e
  | .ok (b1, items) =>
    let lists := b1.emoji_list.getD []
    let g := setFrequency (addEdges b1.graph items) (freqCount lists)
    .ok ({ b1 with graph := g }, g)

/-! ### Lemmas about the split loop -/

lemma splitAux_cons_space_nil {c : Char} {cs : List Char} (h : isSpace c = true) :
    splitAux (c :: cs) [] = splitAux cs [] := by
  simp [splitAux, h]

lemma splitAux_cons_space_cons {c : Char} {cs : List Char} {a : Char} {as : List Char}
    (h : isSpace c = true) :
    splitAux (c :: cs) (a :: as) = (a :: as).reverse :: splitAux cs [] := by
  simp [splitAux, h]

lemma splitAux_cons_nonspace {c : Char} {cs acc : List Char} (h : isSpace c = false) :
    splitAux (c :: cs) acc = splitAux cs (c :: acc) := by
  cases acc <;> simp [splitAux, h]

/-- Every chunk emitted by the split loop is nonempty and free of
whitespace, provided the running accumulator is. -/
lemma mem_splitAux (l : List Char) : ∀ acc : List Char, (∀ c ∈ acc, isSpace c = false) →
    ∀ t ∈ splitAux l acc, t ≠ [] ∧ ∀ c ∈ t, isSpace c = false := by
  induction l with
  | nil =>
    intro acc hacc t ht
    cases acc with
    | nil => simp [splitAux] at ht
    | cons a as =>
      simp only [splitAux, List.mem_singleton] at ht
      subst ht
      refine ⟨by simp, ?_⟩
      intro c hc
      exact hacc c (List.mem_reverse.mp hc)
  | cons c cs ih =>
    intro acc hacc t ht
    cases hsp : isSpace c with
    | false =>
      rw [splitAux_cons_nonspace hsp] at ht
      refine ih (c :: acc) ?_ t ht
      intro d hd
      rcases List.mem_cons.mp hd with rfl | hd'
      · exact hsp
      · exact hacc d hd'
    | true =>
      cases acc with
      | nil =>
        rw [splitAux_cons_space_nil hsp] at ht
        exact ih [] (by simp) t ht
      | cons a as =>
        rw [splitAux_cons_space_cons hsp] at ht
        rcases List.mem_cons.mp ht with rfl | ht'
        · refine ⟨by simp, ?_⟩
          intro d hd
          exact hacc d (List.mem_reverse.mp hd)
        · exact ih [] (by simp) t ht'

/-- Tokens produced by `pySplit` are nonempty and whitespace-free. -/
lemma mem_pySplit {l t : List Char} (ht : t ∈ pySplit l) :
    t ≠ [] ∧ ∀ c ∈ t, isSpace c = false :=
  mem_splitAux l [] (by simp) t ht

/-- A whitespace-only input splits into no tokens at all. -/
lemma pySplit_all_space {l : List Char} (h : ∀ c ∈ l, isSpace c = true) :
    pySplit l = [] := by
  unfold pySplit
  induction l with
  | nil => rfl
  | cons c cs ih =>
    rw [splitAux_cons_space_nil (h c (List.mem_cons_self c cs))]
    exact ih fun d hd => h d (List.mem_cons_of_mem c hd)

lemma dropWhile_eq_self_of_forall {p : Char → Bool} {l : List Char}
    (h : ∀ c ∈ l, p c = false) : l.dropWhile p = l := by
  cases l with
  | nil => rfl
  | cons a as =>
    rw [List.dropWhile_cons_of_neg]
    simp [h a (List.mem_cons_self a as)]

/-- `strip()` is the identity on a whitespace-free chunk. -/
lemma pyStrip_eq_self {t : List Char} (h : ∀ c ∈ t, isSpace c = false) :
    pyStrip t = t := by
  unfold pyStrip
  rw [dropWhile_eq_self_of_forall h,
    dropWhile_eq_self_of_forall (fun c hc => h c (List.mem_reverse.mp hc)),
    List.reverse_reverse]

/-- The accumulator loop computes exactly the maximal non-whitespace
runs: empty accumulator gives `wsTokens`, a pending nonempty word is
completed by the next run. -/
lemma splitAux_spec (l : List Char) :
    splitAux l [] = wsTokens l ∧
    ∀ acc, acc ≠ [] → (∀ c ∈ acc, isSpace c = false) →
      splitAux l acc = (acc.reverse ++ l.takeWhile (fun d => !isSpace d)) ::
        wsTokens (l.dropWhile (fun d => !isSpace d)) := by
  induction l with
  | nil =>
    constructor
    · simp [splitAux, wsTokens]
    · intro acc hne _
      cases acc with
      | nil => exact absurd rfl hne
      | cons a as => simp [splitAux, wsTokens]
  | cons c cs ih =>
    cases hsp : isSpace c with
    | true =>
      constructor
      · rw [splitAux_cons_space_nil hsp, ih.1]
        simp [wsTokens, hsp]
      · intro acc hne hacc
        cases acc with
        | nil => exact absurd rfl hne
        | cons a as =>
          rw [splitAux_cons_space_cons hsp, ih.1]
          have ht : (c :: cs).takeWhile (fun d => !isSpace d) = [] := by
            rw [List.takeWhile_cons_of_neg]
            simp [hsp]
          have hd : (c :: cs).dropWhile (fun d => !isSpace d) = c :: cs := by
            rw [List.dropWhile_cons_of_neg]
            simp [hsp]
          rw [ht, hd]
          simp [wsTokens, hsp]
    | false =>
      have hext : ∀ acc, (∀ c ∈ acc, isSpace c = false) →
          ∀ d ∈ c :: acc, isSpace d = false := by
        intro acc hacc d hd
        rcases List.mem_cons.mp hd with rfl | hd'
        · exact hsp
        · exact hacc d hd'
      have ht : (c :: cs).takeWhile (fun d => !isSpace d) =
          c :: cs.takeWhile (fun d => !isSpace d) := by
        rw [List.takeWhile_cons_of_pos]
        simp [hsp]
      have hd : (c :: cs).dropWhile (fun d => !isSpace d) =
          cs.dropWhile (fun d => !isSpace d) := by
        rw [List.dropWhile_cons_of_pos]
        simp [hsp]
      constructor
      · rw [splitAux_cons_nonspace hsp,
          (ih.2) [c] (by simp) (by simpa using hsp)]
        simp [wsTokens, hsp]
      · intro acc hne hacc
        rw [splitAux_cons_nonspace hsp,
          (ih.2) (c :: acc) (by simp) (hext acc hacc), ht, hd]
        simp

/-- `pySplit` computes the spec's split: the maximal non-whitespace
runs of the input, in order. -/
lemma pySplit_eq_wsTokens (l : List Char) : pySplit l = wsTokens l :=
  (splitAux_spec l).1

/-! ### Lemmas about pair counting -/

lemma sortedDistinct_nodup (l : List α) : (sortedDistinct l).Nodup :=
  ((List.perm_insertionSort _ l.dedup).symm).nodup (List.nodup_dedup l)

lemma mem_sortedDistinct {l : List α} {a : α} : a ∈ sortedDistinct l ↔ a ∈ l :=
  ((List.perm_insertionSort _ l.dedup).mem_iff).trans List.mem_dedup

lemma sortedDistinct_sorted (l : List α) : (sortedDistinct l).Sorted (· < ·) :=
  List.Sorted.lt_of_le (List.sorted_insertionSort _ l.dedup) (sortedDistinct_nodup l)

omit [LinearOrder α] in
lemma count_map_pair (x a b : α) (xs : List α) :
    (xs.map fun y => (x, y)).count (a, b) = if a = x then xs.count b else 0 := by
  induction xs with
  | nil => simp
  | cons z zs ih =>
    simp only [List.map_cons, List.count_cons, ih, beq_iff_eq, Prod.mk.injEq]
    rcases eq_or_ne a x with rfl | hax
    · rcases eq_or_ne b z with rfl | hbz
      · simp
      · simp [hbz, Ne.symm hbz]
    · simp [hax, Ne.symm hax]

/-- In the combination list of a strictly sorted list, the pair
`(a, b)` occurs exactly once when `a` and `b` are members with
`a < b`, and never otherwise. -/
lemma count_pairs {l : List α} (hl : l.Sorted (· < ·)) (a b : α) :
    (pairs l).count (a, b) = if a ∈ l ∧ b ∈ l ∧ a < b then 1 else 0 := by
  induction l with
  | nil => simp [pairs]
  | cons x xs ih =>
    have hx : ∀ y ∈ xs, x < y := (List.sorted_cons.mp hl).1
    have hs : xs.Sorted (· < ·) := (List.sorted_cons.mp hl).2
    have hnd : xs.Nodup := hs.nodup
    have hxs : x ∉ xs := fun h => absurd (hx x h) (lt_irrefl x)
    rw [pairs, List.count_append, ih hs]
    have hmap : (xs.map fun y => (x, y)).count (a, b) =
        if a = x ∧ b ∈ xs then 1 else 0 := by
      rw [count_map_pair]
      by_cases hax : a = x
      · subst hax
        by_cases hb : b ∈ xs
        · simp [hb, List.count_eq_one_of_mem hnd hb]
        · simp [hb, List.count_eq_zero.mpr hb]
      · simp [hax]
    rw [hmap]
    by_cases hA : a = x ∧ b ∈ xs
    · have hnB : ¬(a ∈ xs ∧ b ∈ xs ∧ a < b) := fun hB => hxs (hA.1 ▸ hB.1)
      have hC : a ∈ x :: xs ∧ b ∈ x :: xs ∧ a < b :=
        ⟨List.mem_cons.mpr (Or.inl hA.1), List.mem_cons.mpr (Or.inr hA.2),
          hA.1 ▸ hx b hA.2⟩
      rw [if_pos hA, if_neg hnB, if_pos hC]
    · rw [if_neg hA]
      by_cases hB : a ∈ xs ∧ b ∈ xs ∧ a < b
      · have hC : a ∈ x :: xs ∧ b ∈ x :: xs ∧ a < b :=
          ⟨List.mem_cons.mpr (Or.inr hB.1), List.mem_cons.mpr (Or.inr hB.2.1), hB.2.2⟩
        rw [if_pos hB, if_pos hC]
      · rw [if_neg hB, if_neg ?_]
        rintro ⟨ha, hb, hab⟩
        rcases List.mem_cons.mp ha with rfl | ha'
        · rcases List.mem_cons.mp hb with rfl | hb'
          · exact absurd hab (lt_irrefl _)
          · exact hA ⟨rfl, hb'⟩
        · rcases List.mem_cons.mp hb with rfl | hb'
          · exact lt_asymm (hx a ha') hab
          · exact hB ⟨ha', hb', hab⟩

omit [LinearOrder α] in
lemma two_le_length_of_mem {r : List α} {a b : α}
    (ha : a ∈ r) (hb : b ∈ r) (hab : a ≠ b) : 2 ≤ r.length := by
  cases r with
  | nil => simp at ha
  | cons x rest =>
    cases rest with
    | nil =>
      simp only [List.mem_singleton] at ha hb
      exact absurd (ha.trans hb.symm) hab
    | cons y rest2 =>
      simp only [List.length_cons]
      omega

/-- One review contributes the pair `(a, b)` exactly once when its
token list contains both `a` and `b` with `a < b`, and never
otherwise — duplicates inside the review are irrelevant. -/
lemma count_reviewPairs (r : List α) (a b : α) :
    (reviewPairs r).count (a, b) = if a ∈ r ∧ b ∈ r ∧ a < b then 1 else 0 := by
  unfold reviewPairs
  by_cases hlen : r.length < 2
  · rw [if_pos hlen, if_neg, List.count_nil]
    rintro ⟨ha, hb, hab⟩
    exact absurd (two_le_length_of_mem ha hb (ne_of_lt hab)) (by omega)
  · rw [if_neg hlen, count_pairs (sortedDistinct_sorted r)]
    simp [mem_sortedDistinct]

lemma pairCount_cons (r : List α) (rs : List (List α)) (p : α × α) :
    pairCount (r :: rs) p = (reviewPairs r).count p + pairCount rs p := by
  unfold pairCount allPairs
  rw [List.flatMap_cons, List.count_append]

/-- The pair counter at a canonical key counts the reviews whose token
list contains both components, one per review. -/
lemma pairCount_eq_countP (corpus : List (List α)) {a b : α} (hab : a < b) :
    pairCount corpus (a, b) =
      corpus.countP (fun r => decide (a ∈ r) && decide (b ∈ r)) := by
  induction corpus with
  | nil => simp [pairCount, allPairs]
  | cons r rs ih =>
    rw [pairCount_cons, ih, count_reviewPairs, List.countP_cons]
    by_cases h1 : a ∈ r <;> by_cases h2 : b ∈ r <;> simp [h1, h2, hab] <;> omega

/-- Every counted pair comes from some review containing both
components, in ascending order. -/
lemma mem_allPairs {corpus : List (List α)} {p : α × α} (hp : p ∈ allPairs corpus) :
    ∃ r ∈ corpus, p.1 ∈ r ∧ p.2 ∈ r ∧ p.1 < p.2 := by
  unfold allPairs at hp
  rcases List.mem_flatMap.mp hp with ⟨r, hr, hpr⟩
  have hpos : 0 < (reviewPairs r).count (p.1, p.2) :=
    List.count_pos_iff.mpr (by simpa using hpr)
  rw [count_reviewPairs] at hpos
  by_cases h : p.1 ∈ r ∧ p.2 ∈ r ∧ p.1 < p.2
  · exact ⟨r, hr, h⟩
  · rw [if_neg h] at hpos
    exact absurd hpos (lt_irrefl 0)

lemma allPairs_canonical {corpus : List (List α)} {p : α × α}
    (hp : p ∈ allPairs corpus) : p.1 < p.2 := by
  rcases mem_allPairs hp with ⟨r, _, _, _, h⟩
  exact h

lemma pairCount_le_length (corpus : List (List α)) (p : α × α) :
    pairCount corpus p ≤ corpus.length := by
  obtain ⟨a, b⟩ := p
  by_cases h : a < b
  · rw [pairCount_eq_countP corpus h]
    exact List.countP_le_length _
  · have h0 : pairCount corpus (a, b) = 0 :=
      List.count_eq_zero.mpr (fun hmem => h (allPairs_canonical hmem))
    omega

/-! ### Lemmas about graph assembly -/

omit [LinearOrder α] in
lemma addEdges_cons (g : NXGraph α) (i : (α × α) × Nat)
    (is : List ((α × α) × Nat)) :
    addEdges g (i :: is) = addEdges (addEdge g i.1 i.2) is := by
  unfold addEdges
  rw [List.foldl_cons]

omit [LinearOrder α] in
lemma addEdges_frequency (g : NXGraph α) (items : List ((α × α) × Nat)) :
    (addEdges g items).frequency = g.frequency := by
  induction items generalizing g with
  | nil => rfl
  | cons i is ih => rw [addEdges_cons, ih]; rfl

omit [LinearOrder α] in
lemma addEdges_nodes (g : NXGraph α) (items : List ((α × α) × Nat)) :
    (addEdges g items).nodes = g.nodes ∪ itemEndpoints items := by
  induction items generalizing g with
  | nil => simp [addEdges, itemEndpoints]
  | cons i is ih =>
    rw [addEdges_cons, ih]
    ext n
    simp only [addEdge, itemEndpoints, Finset.mem_union, Finset.mem_insert,
      List.mem_toFinset, List.mem_map, List.mem_cons]
    aesop

omit [LinearOrder α] in
lemma addEdges_edges (g : NXGraph α) (items : List ((α × α) × Nat)) :
    (addEdges g items).edges = g.edges ∪ (items.map Prod.fst).toFinset := by
  induction items generalizing g with
  | nil => simp [addEdges]
  | cons i is ih =>
    rw [addEdges_cons, ih]
    ext p
    simp only [addEdge, Finset.mem_union, Finset.mem_insert, List.mem_toFinset,
      List.mem_map, List.mem_cons]
    aesop

omit [LinearOrder α] in
lemma addEdges_weight_notmem {g : NXGraph α}
    {items : List ((α × α) × Nat)} {p : α × α} (hp : p ∉ items.map Prod.fst) :
    (addEdges g items).weight p = g.weight p := by
  induction items generalizing g with
  | nil => rfl
  | cons i is ih =>
    rw [addEdges_cons, ih (fun h => hp (List.mem_cons_of_mem _ h))]
    have hne : p ≠ i.1 := fun h => hp (h ▸ List.mem_cons_self _ _)
    simp [addEdge, hne]

omit [LinearOrder α] in
lemma addEdges_weight_mem {g : NXGraph α}
    {items : List ((α × α) × Nat)} {p : α × α} {w : Nat}
    (hnd : (items.map Prod.fst).Nodup) (hmem : (p, w) ∈ items) :
    (addEdges g items).weight p = w := by
  induction items generalizing g with
  | nil => cases hmem
  | cons i is ih =>
    rw [List.map_cons, List.nodup_cons] at hnd
    rw [addEdges_cons]
    rcases List.mem_cons.mp hmem with heq | hmem'
    · have hp : p ∉ is.map Prod.fst := by
        rw [← heq] at hnd
        exact hnd.1
      rw [addEdges_weight_notmem hp, ← heq]
      simp [addEdge]
    · exact ih hnd.2 hmem'

lemma exists_weight_of_mem_keys {β : Type} {items : List ((β × β) × Nat)} {p : β × β}
    (hp : p ∈ items.map Prod.fst) : ∃ w, (p, w) ∈ items := by
  rcases List.mem_map.mp hp with ⟨i, hi, hfst⟩
  exact ⟨i.2, by rw [← hfst]; simpa using hi⟩

omit [LinearOrder α] in
lemma setFrequency_nodes (g : NXGraph α) (f : α → Nat) :
    (setFrequency g f).nodes = g.nodes := rfl

omit [LinearOrder α] in
lemma setFrequency_edges (g : NXGraph α) (f : α → Nat) :
    (setFrequency g f).edges = g.edges := rfl

omit [LinearOrder α] in
lemma setFrequency_weight (g : NXGraph α) (f : α → Nat) :
    (setFrequency g f).weight = g.weight := rfl

omit [LinearOrder α] in
/-- `set_node_attributes` only reads the node set (and the counter):
two graphs agreeing on nodes, edges and weights end up equal. -/
lemma setFrequency_congr {g1 g2 : NXGraph α} (f : α → Nat)
    (h1 : g1.nodes = g2.nodes) (h2 : g1.edges = g2.edges)
    (h3 : g1.weight = g2.weight) :
    setFrequency g1 f = setFrequency g2 f := by
  ext1
  · exact h1
  · exact h2
  · rw [setFrequency_weight, setFrequency_weight, h3]
  · show (fun n => if n ∈ g1.nodes ∧ 0 < f n then some (f n) else none) =
      (fun n => if n ∈ g2.nodes ∧ 0 < f n then some (f n) else none)
    rw [h1]

/-! ### Characterizing `build_graph` -/

lemma counterItems_keys (corpus : List (List α)) :
    (counterItems corpus).map Prod.fst = (allPairs corpus).dedup := by
  unfold counterItems
  rw [List.map_map]
  simp [Function.comp_def]

lemma counterItems_keys_nodup (corpus : List (List α)) :
    ((counterItems corpus).map Prod.fst).Nodup := by
  rw [counterItems_keys]
  exact List.nodup_dedup _

lemma edges_build_graph (corpus : List (List α)) :
    (build_graph corpus).edges = (allPairs corpus).toFinset := by
  unfold build_graph
  rw [setFrequency_edges, addEdges_edges, counterItems_keys]
  ext p
  simp [NXGraph.empty, List.mem_dedup]

lemma nodes_build_graph (corpus : List (List α)) :
    (build_graph corpus).nodes = pairSupport corpus := by
  unfold build_graph pairSupport
  rw [setFrequency_nodes, addEdges_nodes]
  simp [NXGraph.empty]

lemma mem_pairSupport {corpus : List (List α)} {n : α} :
    n ∈ pairSupport corpus ↔ ∃ p ∈ allPairs corpus, p.1 = n ∨ p.2 = n := by
  simp only [pairSupport, itemEndpoints, counterItems, Finset.mem_union,
    List.mem_toFinset, List.mem_map, List.mem_dedup]
  aesop

lemma frequency_build_graph (corpus : List (List α)) (n : α) :
    (build_graph corpus).frequency n =
      if n ∈ (build_graph corpus).nodes ∧ 0 < freqCount corpus n
      then some (freqCount corpus n) else none := rfl

lemma node_freq_pos {corpus : List (List α)} {n : α}
    (hn : n ∈ (build_graph corpus).nodes) : 0 < freqCount corpus n := by
  rw [nodes_build_graph] at hn
  rcases mem_pairSupport.mp hn with ⟨p, hp, hend⟩
  rcases mem_allPairs hp with ⟨r, hr, h1, h2, _⟩
  have hnr : n ∈ r := by
    rcases hend with h | h
    · exact h ▸ h1
    · exact h ▸ h2
  unfold freqCount
  exact List.count_pos_iff.mpr (List.mem_flatten.mpr ⟨r, hr, hnr⟩)

lemma nodes_subset_freqSupport (corpus : List (List α)) :
    (build_graph corpus).nodes ⊆ freqSupport corpus := by
  intro n hn
  have hpos := node_freq_pos hn
  unfold freqSupport
  rw [List.mem_toFinset]
  exact List.count_pos_iff.mp hpos

lemma one_le_degree {corpus : List (List α)} {n : α}
    (hn : n ∈ (build_graph corpus).nodes) : 1 ≤ degree (build_graph corpus) n := by
  rw [nodes_build_graph] at hn
  rcases mem_pairSupport.mp hn with ⟨p, hp, hend⟩
  have hpe : p ∈ (build_graph corpus).edges := by
    rw [edges_build_graph, List.mem_toFinset]
    exact hp
  have hmem : p ∈ (build_graph corpus).edges.filter (fun e => e.1 = n ∨ e.2 = n) :=
    Finset.mem_filter.mpr ⟨hpe, hend⟩
  unfold degree
  exact Finset.card_pos.mpr ⟨p, hmem⟩

/-! ### Re-insertion and insertion-order lemmas -/

omit [LinearOrder α] in
/-- Folding the same items into the already-assembled graph changes
nothing: `add_edge` overwrites each edge with the same weight. -/
lemma addEdges_readd (g : NXGraph α) (items : List ((α × α) × Nat))
    (f : α → Nat) (hnd : (items.map Prod.fst).Nodup) :
    setFrequency (addEdges (setFrequency (addEdges g items) f) items) f =
      setFrequency (addEdges g items) f := by
  apply setFrequency_congr
  · rw [addEdges_nodes (setFrequency (addEdges g items) f), setFrequency_nodes,
      addEdges_nodes, Finset.union_assoc, Finset.union_self]
  · rw [addEdges_edges (setFrequency (addEdges g items) f), setFrequency_edges,
      addEdges_edges, Finset.union_assoc, Finset.union_self]
  · funext p
    by_cases hp : p ∈ items.map Prod.fst
    · rcases exists_weight_of_mem_keys hp with ⟨w, hw⟩
      rw [addEdges_weight_mem hnd hw, addEdges_weight_mem hnd hw]
    · rw [addEdges_weight_notmem hp, setFrequency_weight]

omit [LinearOrder α] in
/-- Inserting the counter items in any order yields the same graph. -/
lemma addEdges_perm (g : NXGraph α)
    {items1 items2 : List ((α × α) × Nat)} (hperm : items1.Perm items2)
    (hnd : (items1.map Prod.fst).Nodup) :
    addEdges g items1 = addEdges g items2 := by
  have hnd2 : (items2.map Prod.fst).Nodup := (hperm.map Prod.fst).nodup hnd
  ext1
  · rw [addEdges_nodes, addEdges_nodes]
    unfold itemEndpoints
    rw [List.toFinset_eq_of_perm _ _ (hperm.map _),
      List.toFinset_eq_of_perm _ _ (hperm.map _)]
  · rw [addEdges_edges, addEdges_edges, List.toFinset_eq_of_perm _ _ (hperm.map _)]
  · funext p
    by_cases hp : p ∈ items1.map Prod.fst
    · rcases exists_weight_of_mem_keys hp with ⟨w, hw⟩
      rw [addEdges_weight_mem hnd hw, addEdges_weight_mem hnd2 (hperm.mem_iff.mp hw)]
    · rw [addEdges_weight_notmem hp,
        addEdges_weight_notmem (fun h => hp ((hperm.map Prod.fst).mem_iff.mpr h))]
  · rw [addEdges_frequency, addEdges_frequency]

/-! ### Pipeline lemmas -/

lemma create_nodes_err {b : Builder} {e : Unit}
    (hap : applyParse b.records = .error e) : create_nodes b = .error e := by
  simp [create_nodes, hap]

lemma create_nodes_ok {b : Builder} {lists : List (List Token)}
    (hap : applyParse b.records = .ok lists) :
    create_nodes b =
      .ok (⟨b.records, some lists, b.graph⟩, counterItems lists) := by
  simp [create_nodes, hap]

lemma create_nodes_of_ok {b b' : Builder} {items : List ((Token × Token) × Nat)}
    (h : create_nodes b = .ok (b', items)) :
    ∃ lists, applyParse b.records = .ok lists ∧
      b' = ⟨b.records, some lists, b.graph⟩ ∧ items = counterItems lists := by
  cases hap : applyParse b.records with
  | error e =>
    rw [create_nodes_err hap] at h
    cases h
  | ok lists =>
    rw [create_nodes_ok hap] at h
    injection h with h1
    rw [Prod.ext_iff] at h1
    exact ⟨lists, rfl, h1.1.symm, h1.2.symm⟩

lemma build_graph_run_ok {b : Builder} {lists : List (List Token)}
    (hap : applyParse b.records = .ok lists) :
    build_graph_run b =
      .ok (⟨b.records, some lists,
        setFrequency (addEdges b.graph (counterItems lists)) (freqCount lists)⟩,
        setFrequency (addEdges b.graph (counterItems lists)) (freqCount lists)) := by
  simp [build_graph_run, create_nodes_ok hap]

lemma build_graph_run_of_ok {b b1 : Builder} {g1 : NXGraph Token}
    (h : build_graph_run b = .ok (b1, g1)) :
    ∃ lists, applyParse b.records = .ok lists ∧
      b1 = ⟨b.records, some lists, g1⟩ ∧
      g1 = setFrequency (addEdges b.graph (counterItems lists)) (freqCount lists) := by
  cases hap : applyParse b.records with
  | error e =>
    rw [build_graph_run] at h
    rw [create_nodes_err hap] at h
    cases h
  | ok lists =>
    rw [build_graph_run_ok hap] at h
    injection h with h1
    rw [Prod.ext_iff] at h1
    refine ⟨lists, rfl, ?_, h1.2.symm⟩
    have hb : (⟨b.records, some lists,
        setFrequency (addEdges b.graph (counterItems lists)) (freqCount lists)⟩ : Builder) = b1 :=
      h1.1
    have hg : setFrequency (addEdges b.graph (counterItems lists)) (freqCount lists) = g1 :=
      h1.2
    rw [← hb, ← hg]

lemma mem_freqSupport {corpus : List (List α)} {t : α} :
    t ∈ freqSupport corpus ↔ 0 < freqCount corpus t := by
  unfold freqSupport freqCount
  rw [List.mem_toFinset]
  exact List.count_pos_iff.symm

/-- A record whose `emojis` cell makes `parse_emojis` raise makes the
whole column application raise. -/
lemma applyParse_error_of_mem {records : List ReviewRecord}
    (h : ∃ r ∈ records, parse_emojis r.emojis = Except.error ()) :
    applyParse records = Except.error () := by
  induction records with
  | nil =>
    rcases h with ⟨r, hr, _⟩
    cases hr
  | cons x xs ih =>
    rcases h with ⟨r, hr, herr⟩
    rcases List.mem_cons.mp hr with rfl | hr'
    · simp [applyParse, herr]
    · cases hx : parse_emojis x.emojis with
      | error e =>
        cases e
        simp [applyParse, hx]
      | ok l =>
        simp [applyParse, hx, ih ⟨r, hr', herr⟩]

/-! ### The claims -/

/-- C1: For every corpus and every pair of distinct tokens `a`, `b`,
the counter produced by `create_nodes` at the canonical key of the
unordered pair `{a, b}` equals the number of reviews whose parsed token
list contains both `a` and `b` — so each review contributes at most 1
to any pair's count no matter how often either token repeats in it. -/
theorem c1_pair_count_dedups_per_review (corpus : List (List α))
    (a b : α) (hab : a ≠ b) :
    pairCount corpus (min a b, max a b) =
      corpus.countP (fun r => decide (a ∈ r) && decide (b ∈ r)) := by
  rcases lt_or_gt_of_ne hab with h | h
  · rw [min_eq_left h.le, max_eq_right h.le, pairCount_eq_countP corpus h]
  · rw [min_eq_right h.le, max_eq_left h.le, pairCount_eq_countP corpus h]
    apply List.countP_congr
    intro r _
    rw [Bool.and_comm]

/-- Witness for C1 on a concrete two-review corpus: the pair is counted
once per review containing both tokens, not once per occurrence. -/
theorem c1_witness :
    pairCount [[":b:".data, ":a:".data, ":b:".data], [":a:".data, ":b:".data],
        [":a:".data]] (min ":a:".data ":b:".data, max ":a:".data ":b:".data) = 2 :=
  (c1_pair_count_dedups_per_review _ ":a:".data ":b:".data (by decide)).trans (by decide)

/-- C2: The frequency counter computed in `build_graph` maps each token
to the total number of raw occurrences across all parsed token lists:
the sum over the reviews of the token's occurrence count in that
review, with no per-review deduplication. -/
theorem c2_frequency_counts_all_occurrences (corpus : List (List α)) (t : α) :
    freqCount corpus t = (corpus.map (List.count t)).sum := by
  unfold freqCount
  exact List.count_flatten t corpus

/-- C3: The node set of the built graph is exactly the set of tokens
touched by some pair-count entry; the `frequency` attribute exists only
on such nodes; and a token that never co-occurs (e.g. the review
`":a: :a: :a:"`) is absent from the graph despite its frequency 3. -/
theorem c3_nodes_are_pair_support :
    (∀ corpus : List (List Token), (build_graph corpus).nodes = pairSupport corpus) ∧
    (∀ (corpus : List (List Token)) (n : Token),
      (build_graph corpus).frequency n ≠ none → n ∈ (build_graph corpus).nodes) ∧
    (parse_emojis (.pstr ":a: :a: :a:") =
        Except.ok [":a:".data, ":a:".data, ":a:".data] ∧
      reviewPairs [":a:".data, ":a:".data, ":a:".data] = [] ∧
      freqCount [[":a:".data, ":a:".data, ":a:".data]] ":a:".data = 3 ∧
      ":a:".data ∉ (build_graph [[":a:".data, ":a:".data, ":a:".data]]).nodes) := by
  refine ⟨nodes_build_graph, ?_, rfl, by decide, by decide, by decide⟩
  intro corpus n h
  rw [frequency_build_graph] at h
  by_cases hc : n ∈ (build_graph corpus).nodes ∧ 0 < freqCount corpus n
  · exact hc.1
  · rw [if_neg hc] at h
    exact absurd rfl h

/-- Witness for C3: on a concrete corpus, a node carrying the
`frequency` attribute is indeed in the node set. -/
theorem c3_witness :
    ":a:".data ∈ (build_graph [[":a:".data, ":b:".data]]).nodes :=
  c3_nodes_are_pair_support.2.1 [[":a:".data, ":b:".data]] ":a:".data (by decide)

/-- C4: `parse_emojis` sends a missing cell or the empty string to the
empty token list, and any present string to the whitespace-split,
per-token-trimmed list (`wsTokens` is the independent maximal-run
description of whitespace splitting); order and duplicates are
preserved, as the concrete `":a: :b: :a:"` run shows. -/
theorem c4_parse_splits_on_whitespace (s : String) :
    parse_emojis PyValue.na = Except.ok [] ∧
    parse_emojis (.pstr "") = Except.ok [] ∧
    parse_emojis (.pstr s) = Except.ok ((wsTokens s.data).map pyStrip) ∧
    parse_emojis (.pstr ":a: :b: :a:") =
      Except.ok [":a:".data, ":b:".data, ":a:".data] := by
  refine ⟨rfl, rfl, ?_, rfl⟩
  unfold parse_emojis
  rw [← pySplit_eq_wsTokens]
  rfl

/-- C5 counterexample: a present non-string `emojis` value does not
contribute an empty token list — `parse_emojis` raises
(`AttributeError` on `x.split()`), and the exception aborts
`create_nodes` for the whole corpus instead of skipping the record. -/
theorem c5_counterexample :
    parse_emojis (.pint 5) = Except.error () ∧
    parse_emojis (.pint 5) ≠ Except.ok [] ∧
    create_nodes (mkBuilder
      [⟨"n1", "c", "r", .pstr ":a: :b:", 5, "u"⟩,
       ⟨"n2", "c", "r", .pint 7, 4, "u"⟩]) = Except.error () := by
  refine ⟨rfl, ?_, rfl⟩
  intro h
  exact Except.noConfusion h

/-- C5 amended: `parse_emojis` never raises on missing or string
inputs (missing gives `[]`), but on a present non-string value it
raises, and the exception propagates through `create_nodes`, aborting
the computation over the remaining corpus rather than skipping the
record. -/
theorem c5_nonstring_raises_and_aborts :
    (∀ s : String, parse_emojis (.pstr s) =
      Except.ok ((pySplit s.data).map pyStrip)) ∧
    parse_emojis PyValue.na = Except.ok [] ∧
    (∀ n : Int, parse_emojis (.pint n) = Except.error ()) ∧
    (∀ b : Builder, (∃ r ∈ b.records, parse_emojis r.emojis = Except.error ()) →
      create_nodes b = Except.error ()) := by
  refine ⟨fun s => rfl, rfl, fun n => rfl, fun b hb => ?_⟩
  exact create_nodes_err (applyParse_error_of_mem hb)

/-- Witness for C5 (amended): a one-record corpus with an integer
`emojis` cell makes `create_nodes` abort. -/
theorem c5_witness :
    create_nodes (mkBuilder [⟨"n", "c", "r", .pint 3, 1, "u"⟩]) =
      Except.error () :=
  c5_nonstring_raises_and_aborts.2.2.2 _
    ⟨⟨"n", "c", "r", .pint 3, 1, "u"⟩, List.mem_singleton.mpr rfl, rfl⟩

/-- C6 counterexample: `create_nodes` does not leave the reviews
DataFrame unchanged — starting from a builder whose `emoji_list`
column is absent, it returns a builder where that new column is
present. -/
theorem c6_counterexample :
    (mkBuilder [⟨"n", "c", "r", .pstr ":b: :a:", 5, "u"⟩]).emoji_list = none ∧
    create_nodes (mkBuilder [⟨"n", "c", "r", .pstr ":b: :a:", 5, "u"⟩]) =
      Except.ok (⟨[⟨"n", "c", "r", .pstr ":b: :a:", 5, "u"⟩],
        some [[":b:".data, ":a:".data]], NXGraph.empty Token⟩,
        [((":a:".data, ":b:".data), 1)]) ∧
    (some [[":b:".data, ":a:".data]] : Option (List (List Token))) ≠ none := by
  refine ⟨rfl, rfl, ?_⟩
  intro h
  exact Option.noConfusion h

/-- C6 amended: `create_nodes` modifies no existing field of any
record (the record list and the graph are returned unchanged), but it
does add the derived `emoji_list` column, holding exactly the parsed
token lists; the returned counter is recomputed from those lists. -/
theorem c6_read_only_except_emoji_list (b b' : Builder)
    (items : List ((Token × Token) × Nat))
    (h : create_nodes b = Except.ok (b', items)) :
    b'.records = b.records ∧ b'.graph = b.graph ∧
    ∃ lists, applyParse b.records = Except.ok lists ∧
      b'.emoji_list = some lists ∧ items = counterItems lists := by
  rcases create_nodes_of_ok h with ⟨lists, hap, rfl, rfl⟩
  exact ⟨rfl, rfl, lists, hap, rfl, rfl⟩

/-- Witness for C6 (amended): on a concrete run the record list comes
back unchanged while the parsed column appears. -/
theorem c6_witness :
    (⟨[⟨"n", "c", "r", .pstr ":b: :a:", 5, "u"⟩],
      some [[":b:".data, ":a:".data]], NXGraph.empty Token⟩ : Builder).records =
      (mkBuilder [⟨"n", "c", "r", .pstr ":b: :a:", 5, "u"⟩]).records :=
  (c6_read_only_except_emoji_list
    (mkBuilder [⟨"n", "c", "r", .pstr ":b: :a:", 5, "u"⟩]) _ _ rfl).1

/-- C7: Every key of the pair counter returned by `create_nodes` is a
lexicographically ordered pair of distinct tokens, no unordered pair is
stored under both orders, and the assembled graph has no self-loop. -/
theorem c7_keys_canonical (corpus : List (List Token)) :
    (∀ p ∈ (counterItems corpus).map Prod.fst, p.1 < p.2) ∧
    (∀ a b : Token, (a, b) ∈ (counterItems corpus).map Prod.fst →
      (b, a) ∉ (counterItems corpus).map Prod.fst) ∧
    (∀ n : Token, (n, n) ∉ (build_graph corpus).edges) := by
  have hkey : ∀ p ∈ (counterItems corpus).map Prod.fst, p.1 < p.2 := by
    intro p hp
    rw [counterItems_keys, List.mem_dedup] at hp
    exact allPairs_canonical hp
  refine ⟨hkey, ?_, ?_⟩
  · intro a b hab hba
    exact lt_asymm (hkey _ hab) (hkey _ hba)
  · intro n hn
    rw [edges_build_graph, List.mem_toFinset] at hn
    exact absurd (allPairs_canonical hn) (lt_irrefl n)

/-- Witness for C7: the single key produced by a concrete review is
ascending. -/
theorem c7_witness :
    ((":a:".data, ":b:".data) : Token × Token).1 <
      ((":a:".data, ":b:".data) : Token × Token).2 :=
  (c7_keys_canonical [[":b:".data, ":a:".data]]).1 _ (by decide)

/-- C8: Every node of the built graph has degree at least 1, the node
set is contained in the frequency counter's key set — strictly whenever
some token has occurrences but never co-occurs — and no pair's count
exceeds the number of reviews. -/
theorem c8_degree_subset_bound (corpus : List (List Token)) :
    (∀ n ∈ (build_graph corpus).nodes, 1 ≤ degree (build_graph corpus) n) ∧
    (build_graph corpus).nodes ⊆ freqSupport corpus ∧
    ((∃ t, 0 < freqCount corpus t ∧ t ∉ (build_graph corpus).nodes) →
      (build_graph corpus).nodes ⊂ freqSupport corpus) ∧
    (∀ p : Token × Token, pairCount corpus p ≤ corpus.length) := by
  refine ⟨fun n hn => one_le_degree hn, nodes_subset_freqSupport corpus, ?_,
    pairCount_le_length corpus⟩
  rintro ⟨t, htf, htn⟩
  rw [Finset.ssubset_iff_of_subset (nodes_subset_freqSupport corpus)]
  exact ⟨t, mem_freqSupport.mpr htf, htn⟩

/-- Witness for C8 on a concrete corpus with a never-co-occurring
token `":c:"`: positive degree, and a strict node-set inclusion. -/
theorem c8_witness :
    1 ≤ degree (build_graph [[":a:".data, ":b:".data], [":c:".data, ":c:".data]])
      ":a:".data ∧
    (build_graph [[":a:".data, ":b:".data], [":c:".data, ":c:".data]]).nodes ⊂
      freqSupport [[":a:".data, ":b:".data], [":c:".data, ":c:".data]] :=
  ⟨(c8_degree_subset_bound _).1 _ (by decide),
    (c8_degree_subset_bound _).2.2.1 ⟨":c:".data, by decide, by decide⟩⟩

/-- C9: Running `build_graph` a second time on the unchanged builder
returns a graph identical to the first run's (node set, edge set and
both attributes), and assembling the same counter items and frequency
map in any insertion order yields the same graph. -/
theorem c9_idempotent_and_order_independent :
    (∀ (b b1 b2 : Builder) (g1 g2 : NXGraph Token),
      build_graph_run b = Except.ok (b1, g1) →
      build_graph_run b1 = Except.ok (b2, g2) → g2 = g1) ∧
    (∀ (g : NXGraph Token) (items1 items2 : List ((Token × Token) × Nat))
      (f : Token → Nat), items1.Perm items2 → (items1.map Prod.fst).Nodup →
      setFrequency (addEdges g items1) f = setFrequency (addEdges g items2) f) := by
  constructor
  · intro b b1 b2 g1 g2 h1 h2
    rcases build_graph_run_of_ok h1 with ⟨lists, hap, hb1, hg1⟩
    rcases build_graph_run_of_ok h2 with ⟨lists2, hap2, hb2, hg2⟩
    have hrec : b1.records = b.records := by rw [hb1]
    have hlists : lists2 = lists := by
      rw [hrec, hap] at hap2
      injection hap2 with h
      exact h.symm
    have hbg : b1.graph = g1 := by rw [hb1]
    rw [hg2, hlists, hbg, hg1]
    exact addEdges_readd b.graph (counterItems lists) _ (counterItems_keys_nodup lists)
  · intro g items1 items2 f hperm hnd
    rw [addEdges_perm g hperm hnd]

/-- Witness for C9: a concrete double run returns the first graph
unchanged, and a concrete two-item transposition assembles the same
graph. -/
theorem c9_witness :
    (setFrequency (addEdges
        (setFrequency (addEdges (NXGraph.empty Token)
          (counterItems [[":a:".data, ":b:".data]]))
          (freqCount [[":a:".data, ":b:".data]]))
        (counterItems [[":a:".data, ":b:".data]]))
        (freqCount [[":a:".data, ":b:".data]]) =
      setFrequency (addEdges (NXGraph.empty Token)
        (counterItems [[":a:".data, ":b:".data]]))
        (freqCount [[":a:".data, ":b:".data]])) ∧
    setFrequency (addEdges (NXGraph.empty Token)
        [((":a:".data, ":b:".data), 1), ((":a:".data, ":c:".data), 2)])
        (fun _ => 1) =
      setFrequency (addEdges (NXGraph.empty Token)
        [((":a:".data, ":c:".data), 2), ((":a:".data, ":b:".data), 1)])
        (fun _ => 1) :=
  ⟨c9_idempotent_and_order_independent.1
      (mkBuilder [⟨"n", "c", "r", .pstr ":a: :b:", 5, "u"⟩])
      _ _ _ _ rfl rfl,
    c9_idempotent_and_order_independent.2 _ _ _ _
      (List.Perm.swap _ _ _) (by decide)⟩

/-- C10: Every token returned for a string input is nonempty and
whitespace-free, a whitespace-only string parses to the empty list,
and the per-token trimming step is a no-op on split output. -/
theorem c10_split_tokens_clean (s : String) :
    (∀ l : List Token, parse_emojis (.pstr s) = Except.ok l →
      ∀ t ∈ l, t ≠ [] ∧ ∀ c ∈ t, isSpace c = false) ∧
    ((∀ c ∈ s.data, isSpace c = true) → parse_emojis (.pstr s) = Except.ok []) ∧
    (∀ t ∈ pySplit s.data, pyStrip t = t) := by
  refine ⟨?_, ?_, fun t ht => pyStrip_eq_self (mem_pySplit ht).2⟩
  · intro l hl t ht
    have hl' : l = (pySplit s.data).map pyStrip := by
      have : parse_emojis (.pstr s) = Except.ok ((pySplit s.data).map pyStrip) := rfl
      rw [this] at hl
      injection hl with h
      exact h.symm
    subst hl'
    rcases List.mem_map.mp ht with ⟨u, hu, rfl⟩
    rw [pyStrip_eq_self (mem_pySplit hu).2]
    exact mem_pySplit hu
  · intro hall
    show Except.ok ((pySplit s.data).map pyStrip) = Except.ok []
    rw [pySplit_all_space hall]
    rfl

/-- Witness for C10: a concrete token of a concrete parse is nonempty
and whitespace-free, and a whitespace-only string parses to `[]`. -/
theorem c10_witness :
    ((":a:".data : Token) ≠ [] ∧ ∀ c ∈ (":a:".data : Token), isSpace c = false) ∧
    parse_emojis (.pstr "  ") = Except.ok [] :=
  ⟨(c10_split_tokens_clean ":a: :b:").1 _ rfl ":a:".data (by decide),
    (c10_split_tokens_clean "  ").2.1 (by decide)⟩

end GraphBuilder
